import Mathlib

/-!
Verification of the de Bruijn graph construction in `Devoir/script05.py`.

Strings are modelled as `List Char`; Python's string comparison is
lexicographic on character code points, modelled by `strLe` below.
A Python `dict` (insertion-ordered, unique keys) is modelled as an
insertion-ordered association list `List (Str × List Str)`.
-/

abbrev Str := List Char

/-- Python slice `Pattern[:-1]`: the k-mer minus its last symbol. -/
def Prefix (Pattern : Str) : Str := Pattern.dropLast

/-- Python slice `Pattern[1:]`: the k-mer minus its first symbol. -/
def Suffix (Pattern : Str) : Str := Pattern.drop 1

/-- The list of `(Prefix kmer, Suffix kmer)` pairs,
one per input k-mer, in input order. -/
def CompositionGraph (Patterns : List Str) : List (Str × Str) :=
  Patterns.map (fun kmer => (Prefix kmer, Suffix kmer))

/-- Python string `<=`: lexicographic comparison on code points, a
proper initial segment comparing less than the longer string. -/
def strLe : Str → Str → Bool
  | [], _ => true
  | _ :: _, [] => false
  | a :: as, b :: bs => if a < b then true else if b < a then false else strLe as bs

/-- The `≤` order on modelled strings, as a proposition. -/
def StrLe (a b : Str) : Prop := strLe a b = true

instance : DecidableRel StrLe := fun a b => inferInstanceAs (Decidable (strLe a b = true))

/-- Strict form of `StrLe`, for stating strict sortedness of keys. -/
def StrLt (a b : Str) : Prop := StrLe a b ∧ a ≠ b

/-- One step of the grouping loop in `DeBruijn`: append `s` to the entry
of the first item whose key is `p`, or add a fresh entry `(p, [s])` at
the end (Python dict insertion order). -/
def addEdge (m : List (Str × List Str)) (p s : Str) : List (Str × List Str) :=
  match m with
  | [] => [(p, [s])]
  | kv :: rest =>
      if kv.1 = p then (kv.1, kv.2 ++ [s]) :: rest else kv :: addEdge rest p s

/-- Comparison of dict items used by `sorted(adj_list.items())`.  Python
compares the `(key, value)` tuples lexicographically, but dict keys are
unique, so the comparison is decided by the keys alone. -/
def ItemLe (x y : Str × List Str) : Prop := StrLe x.1 y.1

instance : DecidableRel ItemLe := fun x y => inferInstanceAs (Decidable (strLe x.1 y.1 = true))

/-- Build the adjacency dict by the grouping loop over
`CompositionGraph Patterns`, then sort the items by key and sort each
value list (`{k: sorted(v) for k, v in sorted(adj_list.items())}`). -/
def DeBruijn (Patterns : List Str) : List (Str × List Str) :=
  let adj := (CompositionGraph Patterns).foldl (fun m e => addEdge m e.1 e.2) []
  (List.insertionSort ItemLe adj).map (fun kv => (kv.1, List.insertionSort StrLe kv.2))

/-- Abbreviation for writing concrete test strings. -/
def toL (s : String) : Str := s.data

/-- The suffixes of those input k-mers whose prefix is `k`, in input
order: the multiset of out-neighbours the code accumulates under key `k`. -/
def sufs (Patterns : List Str) (k : Str) : List Str :=
  ((CompositionGraph Patterns).filter (fun e => decide (e.1 = k))).map (fun e => e.2)

/-- The adjacency dict of `DeBruijn` before the final sorting step. -/
def adjOf (Patterns : List Str) : List (Str × List Str) :=
  (CompositionGraph Patterns).foldl (fun m e => addEdge m e.1 e.2) []

/-- The keys of the unsorted adjacency dict, in insertion order. -/
def keysOf (Patterns : List Str) : List Str :=
  (adjOf Patterns).map (fun kv => kv.1)

/-- Canonical description of `DeBruijn`: the sorted list of distinct
prefixes, each paired with the sorted list of suffixes of the k-mers
having that prefix. -/
def canon (Patterns : List Str) : List (Str × List Str) :=
  (List.insertionSort StrLe (keysOf Patterns)).map
    (fun k => (k, List.insertionSort StrLe (sufs Patterns k)))

/-- First-match lookup in an association list, mirroring how the grouping
loop locates the entry of a key. -/
def findVal (k : Str) : List (Str × List Str) → List Str
  | [] => []
  | kv :: rest => if kv.1 = k then kv.2 else findVal k rest

/-! ### The string order is a total preorder with antisymmetry -/

theorem strLe_refl (a : Str) : strLe a a = true := by
  induction a with
  | nil => rfl
  | cons x xs ih => simp [strLe, ih]

theorem strLe_total (a b : Str) : strLe a b = true ∨ strLe b a = true := by
  induction a generalizing b with
  | nil => left; rfl
  | cons x xs ih =>
      cases b with
      | nil => right; rfl
      | cons y ys =>
          rcases lt_trichotomy x y with h | h | h
          · left; simp [strLe, h]
          · subst h
            rcases ih ys with h' | h'
            · left; simp [strLe, lt_irrefl, h']
            · right; simp [strLe, lt_irrefl, h']
          · right; simp [strLe, h]

theorem strLe_antisymm {a b : Str} (h₁ : strLe a b = true) (h₂ : strLe b a = true) :
    a = b := by
  induction a generalizing b with
  | nil =>
      cases b with
      | nil => rfl
      | cons y ys => simp [strLe] at h₂
  | cons x xs ih =>
      cases b with
      | nil => simp [strLe] at h₁
      | cons y ys =>
          rcases lt_trichotomy x y with h | h | h
          · simp [strLe, h, asymm h] at h₂
          · subst h
            simp only [strLe, lt_irrefl, if_false] at h₁ h₂
            exact congrArg (x :: ·) (ih h₁ h₂)
          · simp [strLe, h, asymm h] at h₁

theorem strLe_trans {a b c : Str} (h₁ : strLe a b = true) (h₂ : strLe b c = true) :
    strLe a c = true := by
  induction a generalizing b c with
  | nil => rfl
  | cons x xs ih =>
      cases b with
      | nil => simp [strLe] at h₁
      | cons y ys =>
          cases c with
          | nil => simp [strLe] at h₂
          | cons z zs =>
              rcases lt_trichotomy x y with hxy | hxy | hxy
              · rcases lt_trichotomy y z with hyz | hyz | hyz
                · simp [strLe, lt_trans hxy hyz]
                · subst hyz; simp [strLe, hxy]
                · simp [strLe, hyz, asymm hyz] at h₂
              · subst hxy
                simp only [strLe, lt_irrefl, if_false] at h₁
                rcases lt_trichotomy x z with hxz | hxz | hxz
                · simp [strLe, hxz]
                · subst hxz
                  simp only [strLe, lt_irrefl, if_false] at h₂ ⊢
                  exact ih h₁ h₂
                · simp [strLe, hxz, asymm hxz] at h₂
              · simp [strLe, hxy, asymm hxy] at h₁

instance : IsTotal Str StrLe := ⟨strLe_total⟩

instance : IsTrans Str StrLe := ⟨fun _ _ _ => strLe_trans⟩

instance : IsAntisymm Str StrLe := ⟨fun _ _ => strLe_antisymm⟩

instance : IsTotal (Str × List Str) ItemLe := ⟨fun x y => strLe_total x.1 y.1⟩

instance : IsTrans (Str × List Str) ItemLe := ⟨fun _ _ _ => strLe_trans⟩

/-! ### Behaviour of one grouping step -/

theorem findVal_addEdge (m : List (Str × List Str)) (p s k : Str) :
    findVal k (addEdge m p s) =
      if p = k then findVal k m ++ [s] else findVal k m := by
  induction m with
  | nil => by_cases h : p = k <;> simp [addEdge, findVal, h]
  | cons kv rest ih =>
      by_cases h1 : kv.1 = p
      · by_cases h2 : p = k
        · subst h2; simp [addEdge, findVal, h1]
        · have hne : kv.1 ≠ k := fun he => h2 (h1 ▸ he)
          simp [addEdge, findVal, h1, hne, h2]
      · by_cases h2 : kv.1 = k
        · have hpk : ¬p = k := fun he => h1 (h2.trans he.symm)
          have hkp : ¬k = p := fun he => hpk he.symm
          simp [addEdge, findVal, h1, h2, hpk, hkp]
        · simp [addEdge, findVal, h1, h2, ih]

theorem keys_addEdge (m : List (Str × List Str)) (p s : Str) :
    (addEdge m p s).map (fun kv => kv.1) =
      if p ∈ m.map (fun kv => kv.1) then m.map (fun kv => kv.1)
      else m.map (fun kv => kv.1) ++ [p] := by
  induction m with
  | nil => simp [addEdge]
  | cons kv rest ih =>
      by_cases h1 : kv.1 = p
      · simp [addEdge, h1]
      · have hne : ¬p = kv.1 := fun he => h1 he.symm
        by_cases h2 : p ∈ rest.map (fun kv => kv.1)
        · simp [addEdge, h1, hne, h2, ih]
        · simp [addEdge, h1, hne, h2, ih]

theorem mem_keys_addEdge (m : List (Str × List Str)) (p s q : Str) :
    q ∈ (addEdge m p s).map (fun kv => kv.1) ↔
      q ∈ m.map (fun kv => kv.1) ∨ q = p := by
  rw [keys_addEdge]
  by_cases hp : p ∈ m.map (fun kv => kv.1)
  · rw [if_pos hp]
    constructor
    · exact Or.inl
    · rintro (h | rfl)
      · exact h
      · exact hp
  · rw [if_neg hp]; simp

theorem nodup_keys_addEdge {m : List (Str × List Str)}
    (h : (m.map (fun kv => kv.1)).Nodup) (p s : Str) :
    ((addEdge m p s).map (fun kv => kv.1)).Nodup := by
  rw [keys_addEdge]
  by_cases hp : p ∈ m.map (fun kv => kv.1)
  · rw [if_pos hp]; exact h
  · rw [if_neg hp]
    simp [List.nodup_append, h, hp]

/-! ### The full grouping fold -/

/-- The accumulation loop of `DeBruijn`, folding `addEdge` over an edge
list starting from the dict `m`. -/
def groupFold (es : List (Str × Str)) (m : List (Str × List Str)) : List (Str × List Str) :=
  es.foldl (fun m e => addEdge m e.1 e.2) m

theorem findVal_groupFold (es : List (Str × Str)) (m : List (Str × List Str)) (k : Str) :
    findVal k (groupFold es m) =
      findVal k m ++ (es.filter (fun e => decide (e.1 = k))).map (fun e => e.2) := by
  induction es generalizing m with
  | nil => simp [groupFold]
  | cons e rest ih =>
      show findVal k (groupFold rest (addEdge m e.1 e.2)) = _
      rw [ih, findVal_addEdge]
      by_cases h : e.1 = k
      · simp [h, List.filter_cons]
      · simp [h, List.filter_cons]

theorem mem_keys_groupFold (es : List (Str × Str)) (m : List (Str × List Str)) (q : Str) :
    q ∈ (groupFold es m).map (fun kv => kv.1) ↔
      q ∈ m.map (fun kv => kv.1) ∨ ∃ e ∈ es, e.1 = q := by
  induction es generalizing m with
  | nil => simp [groupFold]
  | cons e rest ih =>
      show q ∈ (groupFold rest (addEdge m e.1 e.2)).map (fun kv => kv.1) ↔ _
      rw [ih, mem_keys_addEdge]
      simp only [List.mem_cons]
      constructor
      · rintro ((h | rfl) | ⟨e', he', rfl⟩)
        · exact Or.inl h
        · exact Or.inr ⟨e, Or.inl rfl, rfl⟩
        · exact Or.inr ⟨e', Or.inr he', rfl⟩
      · rintro (h | ⟨e', (rfl | he'), rfl⟩)
        · exact Or.inl (Or.inl h)
        · exact Or.inl (Or.inr rfl)
        · exact Or.inr ⟨e', he', rfl⟩

theorem nodup_keys_groupFold (es : List (Str × Str)) {m : List (Str × List Str)}
    (h : (m.map (fun kv => kv.1)).Nodup) :
    ((groupFold es m).map (fun kv => kv.1)).Nodup := by
  induction es generalizing m with
  | nil => exact h
  | cons e rest ih => exact ih (nodup_keys_addEdge h e.1 e.2)

theorem findVal_of_mem {m : List (Str × List Str)}
    (h : (m.map (fun kv => kv.1)).Nodup) {kv : Str × List Str} (hm : kv ∈ m) :
    findVal kv.1 m = kv.2 := by
  induction m with
  | nil => cases hm
  | cons kv0 rest ih =>
      simp only [List.map_cons, List.nodup_cons] at h
      rcases List.mem_cons.mp hm with rfl | hm'
      · simp [findVal]
      · have h1 : kv0.1 ≠ kv.1 := by
          intro he
          exact h.1 (he ▸ List.mem_map_of_mem (fun kv => kv.1) hm')
        simp [findVal, h1, ih h.2 hm']

theorem map_eq_self_of_mem {α : Type} {f : α → α} {l : List α}
    (h : ∀ x ∈ l, f x = x) : l.map f = l := by
  induction l with
  | nil => rfl
  | cons a l ih =>
      simp [h a (List.mem_cons_self a l),
        ih (fun x hx => h x (List.mem_cons_of_mem _ hx))]

/-! ### Canonical characterization of the result -/

theorem findVal_adjOf (Patterns : List Str) (k : Str) :
    findVal k (adjOf Patterns) = sufs Patterns k := by
  show findVal k (groupFold (CompositionGraph Patterns) []) = _
  rw [findVal_groupFold]
  rfl

theorem nodup_keysOf (Patterns : List Str) : (keysOf Patterns).Nodup :=
  nodup_keys_groupFold (CompositionGraph Patterns) List.nodup_nil

theorem mem_keysOf (Patterns : List Str) (q : Str) :
    q ∈ keysOf Patterns ↔ ∃ w ∈ Patterns, Prefix w = q := by
  show q ∈ (groupFold (CompositionGraph Patterns) []).map (fun kv => kv.1) ↔ _
  rw [mem_keys_groupFold]
  simp [CompositionGraph]

theorem DeBruijn_eq_canon (Patterns : List Str) : DeBruijn Patterns = canon Patterns := by
  have hS : DeBruijn Patterns = (List.insertionSort ItemLe (adjOf Patterns)).map
      (fun kv => (kv.1, List.insertionSort StrLe kv.2)) := rfl
  set S := List.insertionSort ItemLe (adjOf Patterns) with hSdef
  have hperm : S.Perm (adjOf Patterns) := List.perm_insertionSort ItemLe (adjOf Patterns)
  have hnodupA : ((adjOf Patterns).map (fun kv => kv.1)).Nodup := nodup_keysOf Patterns
  have hkeysperm : (S.map (fun kv => kv.1)).Perm (keysOf Patterns) := hperm.map _
  have hsortedS : List.Sorted ItemLe S := List.sorted_insertionSort ItemLe (adjOf Patterns)
  have hsortedKeys : List.Sorted StrLe (S.map (fun kv => kv.1)) :=
    List.Pairwise.map _ (fun _ _ h => h) hsortedS
  have hkeys : S.map (fun kv => kv.1) = List.insertionSort StrLe (keysOf Patterns) :=
    List.eq_of_perm_of_sorted
      (hkeysperm.trans (List.perm_insertionSort StrLe (keysOf Patterns)).symm)
      hsortedKeys (List.sorted_insertionSort StrLe (keysOf Patterns))
  have hitem : ∀ kv ∈ S, (kv.1, sufs Patterns kv.1) = kv := by
    intro kv hkv
    have hmem : kv ∈ adjOf Patterns := hperm.subset hkv
    have hfv := findVal_of_mem hnodupA hmem
    rw [← findVal_adjOf, hfv]
  have hSrepr : S = (S.map (fun kv => kv.1)).map (fun k => (k, sufs Patterns k)) := by
    rw [List.map_map]
    exact (map_eq_self_of_mem hitem).symm
  rw [hS, hSrepr, hkeys, List.map_map]
  rfl

/-! ### Counting lemmas -/

theorem valCount_addEdge (m : List (Str × List Str)) (p s : Str) :
    ((addEdge m p s).map (fun kv => kv.2.length)).sum
      = (m.map (fun kv => kv.2.length)).sum + 1 := by
  induction m with
  | nil => simp [addEdge]
  | cons kv rest ih =>
      by_cases h : kv.1 = p
      · simp [addEdge, h]
        omega
      · simp [addEdge, h, ih]
        omega

theorem valCount_groupFold (es : List (Str × Str)) (m : List (Str × List Str)) :
    ((groupFold es m).map (fun kv => kv.2.length)).sum
      = (m.map (fun kv => kv.2.length)).sum + es.length := by
  induction es generalizing m with
  | nil => simp [groupFold]
  | cons e rest ih =>
      show ((groupFold rest (addEdge m e.1 e.2)).map (fun kv => kv.2.length)).sum = _
      rw [ih, valCount_addEdge]
      simp
      omega

theorem findVal_map_keys (f : Str → List Str) (ks : List Str) (q : Str) :
    findVal q (ks.map (fun k => (k, f k))) = if q ∈ ks then f q else [] := by
  induction ks with
  | nil => simp [findVal]
  | cons k ks ih =>
      by_cases h : k = q
      · subst h; simp [findVal]
      · have h' : ¬q = k := fun he => h he.symm
        simp [findVal, h, h', ih]

theorem count_sufs (Patterns : List Str) (p s : Str) :
    (sufs Patterns p).count s
      = Patterns.countP (fun w => decide (Prefix w = p ∧ Suffix w = s)) := by
  induction Patterns with
  | nil => rfl
  | cons w P ih =>
      simp only [sufs, CompositionGraph, List.map_cons, List.filter_cons] at ih ⊢
      by_cases hp : Prefix w = p
      · by_cases hs : Suffix w = s
        · simp [hp, hs, List.count_cons, List.countP_cons, ih]
        · simp [hp, hs, List.count_cons, List.countP_cons, ih]
      · simp [hp, List.countP_cons, ih]

/-- For a k-mer of length at least 2, the (prefix, suffix) pair determines
the k-mer: no other string produces the same edge. -/
theorem kmer_eq_of_prefix_suffix_eq {w w' : Str} (hw : 2 ≤ w.length)
    (hp : Prefix w' = Prefix w) (hs : Suffix w' = Suffix w) : w' = w := by
  cases w with
  | nil => simp at hw
  | cons a rest =>
      cases rest with
      | nil => simp at hw
      | cons b t =>
          cases w' with
          | nil =>
              exfalso
              have hlen : (Prefix ([] : Str)).length = (Prefix (a :: b :: t)).length := by
                rw [hp]
              simp [Prefix] at hlen
          | cons a' rest' =>
              have hrest : rest' = b :: t := by simpa [Suffix] using hs
              subst hrest
              have hhead : a' = a := by
                simp only [Prefix, List.dropLast] at hp
                exact (List.cons.injEq _ _ _ _).mp hp |>.1
              rw [hhead]

/-! ### Claims -/

/-- C1 (counterexample): on the scenario input, `DeBruijn` does NOT
return the mapping stated in the spec (`GGA -> [GGG]`, `GGG -> [GAG,
GGA]`): the k-mer GGAG yields the edge GGA -> GAG, and GGGG, GGGA yield
GGG -> GGG and GGG -> GGA. -/
theorem scenario_spec_mapping_refuted :
    DeBruijn [toL "GAGG", toL "CAGG", toL "GGGG", toL "GGGA", toL "CAGG",
      toL "AGGG", toL "GGAG"] ≠
    [(toL "AGG", [toL "GGG"]),
     (toL "CAG", [toL "AGG", toL "AGG"]),
     (toL "GAG", [toL "AGG"]),
     (toL "GGA", [toL "GGG"]),
     (toL "GGG", [toL "GAG", toL "GGA"])] := by decide

/-- C1 (amended): on the scenario input `["GAGG","CAGG","GGGG","GGGA",
"CAGG","AGGG","GGAG"]`, `DeBruijn` returns the mapping with key set
{AGG, CAG, GAG, GGA, GGG} where `AGG -> [GGG]`, `CAG -> [AGG, AGG]`,
`GAG -> [AGG]`, `GGA -> [GAG]`, `GGG -> [GGA, GGG]`, keys in sorted
order and each value list sorted. -/
theorem scenario_mapping :
    DeBruijn [toL "GAGG", toL "CAGG", toL "GGGG", toL "GGGA", toL "CAGG",
      toL "AGGG", toL "GGAG"] =
    [(toL "AGG", [toL "GGG"]),
     (toL "CAG", [toL "AGG", toL "AGG"]),
     (toL "GAG", [toL "AGG"]),
     (toL "GGA", [toL "GAG"]),
     (toL "GGG", [toL "GGA", toL "GGG"])] := by decide

/-- C2: for every input sequence of n k-mers, the sum of the lengths of
all value lists in the mapping returned by `DeBruijn` equals n: every
k-mer contributes exactly one (prefix, suffix) entry, none dropped and
none merged. -/
theorem edge_count (Patterns : List Str) :
    ((DeBruijn Patterns).map (fun kv => kv.2.length)).sum = Patterns.length := by
  have hS : DeBruijn Patterns = (List.insertionSort ItemLe (adjOf Patterns)).map
      (fun kv => (kv.1, List.insertionSort StrLe kv.2)) := rfl
  rw [hS, List.map_map]
  have hfun : ((fun kv : Str × List Str => kv.2.length) ∘
      (fun kv : Str × List Str => (kv.1, List.insertionSort StrLe kv.2)))
      = fun kv : Str × List Str => kv.2.length :=
    funext fun kv => List.length_insertionSort StrLe kv.2
  rw [hfun]
  have hperm : ((List.insertionSort ItemLe (adjOf Patterns)).map
      (fun kv : Str × List Str => kv.2.length)).Perm
      ((adjOf Patterns).map (fun kv => kv.2.length)) :=
    (List.perm_insertionSort ItemLe (adjOf Patterns)).map _
  rw [hperm.sum_eq]
  show ((groupFold (CompositionGraph Patterns) []).map (fun kv => kv.2.length)).sum = _
  rw [valCount_groupFold]
  simp [CompositionGraph]

/-- C6: `CompositionGraph` returns a sequence of pairs of the same length
as the input, whose i-th element is (prefix, suffix) of the i-th input
k-mer, in input order; it is a pure function of its argument. -/
theorem compositionGraph_pointwise (Patterns : List Str) :
    (CompositionGraph Patterns).length = Patterns.length ∧
      ∀ (i : Nat) (w : Str), Patterns[i]? = some w →
        (CompositionGraph Patterns)[i]? = some (Prefix w, Suffix w) := by
  constructor
  · simp [CompositionGraph]
  · intro i w hw
    simp [CompositionGraph, List.getElem?_map, hw]

/-- Witness for C6 at a concrete input. -/
theorem compositionGraph_pointwise_witness :
    (CompositionGraph [toL "GAGG"]).length = 1 ∧
      (CompositionGraph [toL "GAGG"])[0]? = some (toL "GAG", toL "AGG") :=
  ⟨(compositionGraph_pointwise [toL "GAGG"]).1,
    (compositionGraph_pointwise [toL "GAGG"]).2 0 (toL "GAGG") rfl⟩

/-- C8: `DeBruijn` applied to the empty sequence returns the empty
mapping, as a normal result. -/
theorem deBruijn_nil : DeBruijn [] = [] := rfl

/-- C3: for any permutation of the input sequence, `DeBruijn` produces an
identical mapping: same keys in the same order, each bound to the same
sorted value list. -/
theorem deBruijn_perm_invariant {l₁ l₂ : List Str} (h : l₁.Perm l₂) :
    DeBruijn l₁ = DeBruijn l₂ := by
  rw [DeBruijn_eq_canon, DeBruijn_eq_canon]
  have hedges : (CompositionGraph l₁).Perm (CompositionGraph l₂) := h.map _
  have hkp : (keysOf l₁).Perm (keysOf l₂) := by
    apply (List.perm_ext_iff_of_nodup (nodup_keysOf l₁) (nodup_keysOf l₂)).mpr
    intro q
    rw [mem_keysOf, mem_keysOf]
    constructor
    · rintro ⟨w, hw, hwp⟩; exact ⟨w, h.subset hw, hwp⟩
    · rintro ⟨w, hw, hwp⟩; exact ⟨w, h.symm.subset hw, hwp⟩
  have hkeys : List.insertionSort StrLe (keysOf l₁)
      = List.insertionSort StrLe (keysOf l₂) :=
    List.eq_of_perm_of_sorted
      (((List.perm_insertionSort _ _).trans hkp).trans
        (List.perm_insertionSort _ _).symm)
      (List.sorted_insertionSort _ _) (List.sorted_insertionSort _ _)
  have hfun : ∀ k : Str, List.insertionSort StrLe (sufs l₁ k)
      = List.insertionSort StrLe (sufs l₂ k) := by
    intro k
    have hp : (sufs l₁ k).Perm (sufs l₂ k) := (hedges.filter _).map _
    exact List.eq_of_perm_of_sorted
      (((List.perm_insertionSort _ _).trans hp).trans
        (List.perm_insertionSort _ _).symm)
      (List.sorted_insertionSort _ _) (List.sorted_insertionSort _ _)
  rw [canon, canon, hkeys]
  exact congrArg
    (fun f => List.map f (List.insertionSort StrLe (keysOf l₂)))
    (funext fun k => by rw [hfun k])

/-- Witness for C3: a concrete permuted pair of inputs yields an equal
mapping. -/
theorem deBruijn_perm_invariant_witness :
    ([toL "GAGG", toL "CAGG", toL "GAGG"].Perm
      [toL "CAGG", toL "GAGG", toL "GAGG"]) ∧
    DeBruijn [toL "GAGG", toL "CAGG", toL "GAGG"]
      = DeBruijn [toL "CAGG", toL "GAGG", toL "GAGG"] :=
  ⟨by decide, deBruijn_perm_invariant (by decide)⟩

/-- C4: keys of the result are strictly increasing lexicographically in
enumeration order, and each key's value list is lexicographically
non-decreasing. -/
theorem deBruijn_sorted (Patterns : List Str) :
    List.Pairwise StrLt ((DeBruijn Patterns).map (fun kv => kv.1)) ∧
      ∀ kv ∈ DeBruijn Patterns, List.Sorted StrLe kv.2 := by
  rw [DeBruijn_eq_canon]
  have hkeysmap : (canon Patterns).map (fun kv => kv.1)
      = List.insertionSort StrLe (keysOf Patterns) := by
    rw [canon, List.map_map]
    exact List.map_id _
  constructor
  · rw [hkeysmap]
    have hs : List.Sorted StrLe (List.insertionSort StrLe (keysOf Patterns)) :=
      List.sorted_insertionSort _ _
    have hn : (List.insertionSort StrLe (keysOf Patterns)).Nodup :=
      (List.perm_insertionSort _ _).nodup_iff.mpr (nodup_keysOf Patterns)
    exact hs.and hn
  · intro kv hkv
    rw [canon] at hkv
    obtain ⟨k, _, rfl⟩ := List.mem_map.mp hkv
    exact List.sorted_insertionSort _ _

/-- C7: the mapping has exactly one key per distinct prefix occurring
among the derived edges (keys are distinct and a string is a key exactly
when some input k-mer has it as prefix), and every value list is
non-empty. -/
theorem deBruijn_keys (Patterns : List Str) :
    ((DeBruijn Patterns).map (fun kv => kv.1)).Nodup ∧
      (∀ q, q ∈ (DeBruijn Patterns).map (fun kv => kv.1) ↔
        ∃ w ∈ Patterns, Prefix w = q) ∧
      ∀ kv ∈ DeBruijn Patterns, kv.2 ≠ [] := by
  rw [DeBruijn_eq_canon]
  have hkeysmap : (canon Patterns).map (fun kv => kv.1)
      = List.insertionSort StrLe (keysOf Patterns) := by
    rw [canon, List.map_map]
    exact List.map_id _
  refine ⟨?_, ?_, ?_⟩
  · rw [hkeysmap]
    exact (List.perm_insertionSort _ _).nodup_iff.mpr (nodup_keysOf Patterns)
  · intro q
    rw [hkeysmap, (List.perm_insertionSort _ _).mem_iff, mem_keysOf]
  · intro kv hkv
    rw [canon] at hkv
    obtain ⟨k, hk, rfl⟩ := List.mem_map.mp hkv
    have hk' : k ∈ keysOf Patterns := (List.perm_insertionSort _ _).subset hk
    obtain ⟨w, hw, rfl⟩ := (mem_keysOf _ _).mp hk'
    intro hnil
    have hmem : Suffix w ∈ List.insertionSort StrLe (sufs Patterns (Prefix w)) := by
      apply (List.perm_insertionSort _ _).mem_iff.mpr
      exact List.mem_map.mpr ⟨(Prefix w, Suffix w),
        List.mem_filter.mpr ⟨List.mem_map.mpr ⟨w, hw, rfl⟩, by simp⟩, rfl⟩
    simp only at hnil
    rw [hnil] at hmem
    cases hmem

/-- C5: a k-mer (length ≥ 2, as the data model requires) appearing m
times in the input has its (prefix, suffix) pair occur exactly m times in
the value list of its prefix key: duplicate edges are preserved, never
deduplicated.  (For degenerate strings of length ≤ 1 the pair would not
determine the k-mer: distinct single-character strings all yield the
edge ("", "").) -/
theorem duplicate_preservation {w : Str} (hw : 2 ≤ w.length) (Patterns : List Str) :
    (findVal (Prefix w) (DeBruijn Patterns)).count (Suffix w)
      = Patterns.count w := by
  rw [DeBruijn_eq_canon, canon, findVal_map_keys]
  by_cases hk : Prefix w ∈ List.insertionSort StrLe (keysOf Patterns)
  · rw [if_pos hk]
    have hcnt : (List.insertionSort StrLe (sufs Patterns (Prefix w))).count (Suffix w)
        = (sufs Patterns (Prefix w)).count (Suffix w) :=
      (List.perm_insertionSort StrLe (sufs Patterns (Prefix w))).countP_eq _
    rw [hcnt, count_sufs]
    have hpred : (fun w' => decide (Prefix w' = Prefix w ∧ Suffix w' = Suffix w))
        = fun w' : Str => w' == w := by
      funext w'
      by_cases hww : w' = w
      · subst hww; simp
      · have hno : ¬(Prefix w' = Prefix w ∧ Suffix w' = Suffix w) := by
          rintro ⟨hp, hs⟩
          exact hww (kmer_eq_of_prefix_suffix_eq hw hp hs)
        simp [hno, hww]
    rw [hpred]
    rfl
  · rw [if_neg hk]
    have hw0 : w ∉ Patterns := by
      intro hmem
      exact hk ((List.perm_insertionSort _ _).mem_iff.mpr
        ((mem_keysOf _ _).mpr ⟨w, hmem, rfl⟩))
    simp [List.count_nil, (List.count_eq_zero).mpr hw0]

/-- Witness for C5: "AB" occurs twice in the input, and its suffix "B"
occurs twice in the value list of its prefix key "A". -/
theorem duplicate_preservation_witness :
    2 ≤ (toL "AB").length ∧
      (findVal (Prefix (toL "AB"))
        (DeBruijn [toL "AB", toL "AB"])).count (Suffix (toL "AB"))
        = [toL "AB", toL "AB"].count (toL "AB") :=
  ⟨by decide, duplicate_preservation (by decide) [toL "AB", toL "AB"]⟩

/-- C9: `DeBruijn` is a total computation over all string sequences: for
every list of strings — lengths validated nowhere, mixed lengths
included — it returns the canonical sorted mapping, prefixes and
suffixes of differing lengths simply being distinct node labels (distinct
key strings).  No failure arises for any input. -/
theorem deBruijn_total_on_strings (Patterns : List Str) :
    DeBruijn Patterns = canon Patterns :=
  DeBruijn_eq_canon Patterns

/-- C10: the empty string has empty prefix and suffix, exactly as a
length-1 k-mer does; an empty-string input item is not rejected but
contributes the edge ("", ""), and the result then has "" as a key with
"" in its value list. -/
theorem empty_string_kmer {Patterns : List Str} (h : ([] : Str) ∈ Patterns) :
    Prefix ([] : Str) = [] ∧ Suffix ([] : Str) = [] ∧
      (∀ c : Char, Prefix [c] = [] ∧ Suffix [c] = []) ∧
      (([] : Str), ([] : Str)) ∈ CompositionGraph Patterns ∧
      ∃ vs, (([] : Str), vs) ∈ DeBruijn Patterns ∧ ([] : Str) ∈ vs := by
  refine ⟨rfl, rfl, fun c => ⟨rfl, rfl⟩, ?_, ?_⟩
  · exact List.mem_map.mpr ⟨[], h, rfl⟩
  · rw [DeBruijn_eq_canon, canon]
    have hk : ([] : Str) ∈ keysOf Patterns := (mem_keysOf _ _).mpr ⟨[], h, rfl⟩
    have hk' : ([] : Str) ∈ List.insertionSort StrLe (keysOf Patterns) :=
      (List.perm_insertionSort _ _).mem_iff.mpr hk
    refine ⟨List.insertionSort StrLe (sufs Patterns []),
      List.mem_map.mpr ⟨[], hk', rfl⟩, ?_⟩
    apply (List.perm_insertionSort _ _).mem_iff.mpr
    exact List.mem_map.mpr ⟨(([] : Str), ([] : Str)),
      List.mem_filter.mpr ⟨List.mem_map.mpr ⟨[], h, rfl⟩, by simp⟩, rfl⟩

/-- Witness for C10: the input consisting of just the empty string. -/
theorem empty_string_kmer_witness :
    (([] : Str) ∈ ([[]] : List Str)) ∧
      ∃ vs, (([] : Str), vs) ∈ DeBruijn ([[]] : List Str) ∧ ([] : Str) ∈ vs :=
  ⟨List.mem_singleton.mpr rfl,
    (empty_string_kmer (List.mem_singleton.mpr rfl)).2.2.2.2⟩
